import Mathlib

/-!
Shallow embedding of the category lifecycle / token-budgeting core of the
llmdump repository (src/src/lib/processing.ts and the split-category
reconciliation loop of src/src/cli.ts), together with theorems settling the
specification claims about it.

Conventions of the embedding:
* JavaScript strings are Lean `String`s; `content.length` is `String.length`.
* JavaScript numbers produced by the token estimator are modelled as exact
  rationals (`ℚ`), as the claims request.
* Optional JavaScript object fields (`metadata?`, `metadata?.url`, `markdown`)
  are `Option` fields; the JS falsiness test `!x` on an optional string is
  `strFalsy` (true on `undefined` and on the empty string).
* `Array.prototype.find` is `List.find?`, `filter` is `List.filter`,
  `map` is `List.map`, `reduce` is `List.foldl`.
* The async cleanup oracle (`cleanupMarkdownDocument(_, openai)`) is an
  explicit function parameter `cleanup : String → String`; the core must work
  for any such oracle.
* `fs.writeFile` side effects are reified: the assembler returns the list of
  (path, content) pairs in write order next to the list of returned paths.
-/

namespace LlmDump

/-- Metadata of one crawled page (`d.metadata` in firecrawl's
`CrawlStatusResponse`); every field is optional in the JS type. -/
structure DocMetadata where
  url : Option String
  title : Option String
  description : Option String
deriving DecidableEq, Repr

/-- One entry of `crawlResult.data`: optional metadata plus optional raw
markdown body. -/
structure FirecrawlDocument where
  metadata : Option DocMetadata
  markdown : Option String
deriving DecidableEq, Repr

/-- The part of firecrawl's `CrawlStatusResponse` the core reads: the `data`
array of crawled documents. -/
structure CrawlStatusResponse where
  data : List FirecrawlDocument
deriving DecidableEq, Repr

/-- One category: a name and a list of referenced URLs
(`{ category, refUrls }` of `categorySchema` in src/src/lib/types.ts). -/
structure Category where
  category : String
  refUrls : List String
deriving DecidableEq, Repr

/-- `CategorySchema`: an ordered list of categories. -/
structure CategorySchema where
  categories : List Category
deriving DecidableEq, Repr

/-- `IdentifierSchema`: the slug naming a crawl session. -/
structure IdentifierSchema where
  identifier : String
deriving DecidableEq, Repr

/-- JS optional-chain access `d.metadata?.url`. -/
def metaUrl (d : FirecrawlDocument) : Option String :=
  d.metadata.bind (fun m => m.url)

/-- JS optional-chain access `d.metadata?.title`. -/
def metaTitle (d : FirecrawlDocument) : Option String :=
  d.metadata.bind (fun m => m.title)

/-- JS falsiness of an optional string: `!x` is true when the field is
absent (`undefined`) or the empty string. -/
def strFalsy : Option String → Bool
  | none => true
  | some s => s = ""

/-- `sanitizeCategories` (src/src/lib/processing.ts:17): for each category,
keep only the refUrls for which `crawlResult.data.find(d => d.metadata?.url
=== u)` finds a document. -/
def sanitizeCategories (categories : CategorySchema)
    (crawlResult : CrawlStatusResponse) : CategorySchema :=
  ⟨categories.categories.map fun c =>
    { c with refUrls := c.refUrls.filter fun u =>
        (crawlResult.data.find? fun d => metaUrl d == some u).isSome }⟩

/-- `estimateTokens` (src/src/lib/processing.ts:36):
`(Math.ceil(content.length / 4) * 4) / 5`, over exact rationals. -/
def estimateTokens (content : String) : ℚ :=
  (⌈(content.length : ℚ) / 4⌉ * 4) / 5

/-- `estimateTokensForCategory` (src/src/lib/processing.ts:46): reduce over
refUrls, adding `estimateTokens(siteData?.markdown ?? "")` where `siteData`
is the document found by URL. -/
def estimateTokensForCategory (category : Category)
    (crawlResult : CrawlStatusResponse) : ℚ :=
  category.refUrls.foldl
    (fun acc url =>
      let siteData := crawlResult.data.find? fun d => metaUrl d == some url
      acc + estimateTokens ((siteData.bind (fun d => d.markdown)).getD ""))
    0

/-- `estimateTokensForAllDocuments` (src/src/lib/processing.ts:61): reduce of
`estimateTokensForCategory` over all categories. -/
def estimateTokensForAllDocuments (categories : CategorySchema)
    (crawlResult : CrawlStatusResponse) : ℚ :=
  categories.categories.foldl
    (fun acc category => acc + estimateTokensForCategory category crawlResult)
    0

/-- The `DocumentContent` interface of src/src/lib/processing.ts. -/
structure DocumentContent where
  title : String
  url : String
  content : String
deriving DecidableEq, Repr

/-- `processDocument` (src/src/lib/processing.ts:87): find the document by
URL; if `!siteData?.metadata?.title || !siteData?.metadata?.url ||
!siteData?.markdown` return null, else clean the markdown and return the
document content.  The cleanup oracle is the parameter `cleanup`. -/
def processDocument (cleanup : String → String) (url : String)
    (crawlResult : CrawlStatusResponse) : Option DocumentContent :=
  let siteData := crawlResult.data.find? fun d => metaUrl d == some url
  if strFalsy (siteData.bind metaTitle) || strFalsy (siteData.bind metaUrl)
      || strFalsy (siteData.bind (fun d => d.markdown)) then
    none
  else
    match siteData with
    | none => none
    | some d =>
      some { title := (metaTitle d).getD ""
             url := (metaUrl d).getD ""
             content := cleanup (d.markdown.getD "") }

/-- `processCategoryContent` (src/src/lib/processing.ts:119): process each
refUrl in order, keeping the non-null results. -/
def processCategoryContent (cleanup : String → String) (category : Category)
    (crawlResult : CrawlStatusResponse) : List DocumentContent :=
  category.refUrls.filterMap fun url => processDocument cleanup url crawlResult

/-- `pruneUrlsFromCategory` (src/src/lib/processing.ts:156): map over the
categories; on a name match filter out the URLs in `urlsToRemove`, otherwise
return the category unchanged. -/
def pruneUrlsFromCategory (categories : CategorySchema) (categoryName : String)
    (urlsToRemove : List String) : CategorySchema :=
  ⟨categories.categories.map fun category =>
    if category.category = categoryName then
      { category with
        refUrls := category.refUrls.filter fun url => !urlsToRemove.contains url }
    else category⟩

/-- `path.join(a, b)`, modelled for a directory path without a trailing
separator: concatenation with a single `/`. -/
def pathJoin (a b : String) : String := a ++ "/" ++ b

/-- The character class of the JS regex `\s` (ECMA-262 WhiteSpace and
LineTerminator code points). -/
def jsWhitespace (c : Char) : Bool :=
  c.val = 0x09 || c.val = 0x0a || c.val = 0x0b || c.val = 0x0c ||
  c.val = 0x0d || c.val = 0x20 || c.val = 0xa0 || c.val = 0x1680 ||
  (0x2000 ≤ c.val && c.val ≤ 0x200a) || c.val = 0x2028 || c.val = 0x2029 ||
  c.val = 0x202f || c.val = 0x205f || c.val = 0x3000 || c.val = 0xfeff

/-- `s.replace(/\s+/g, "_")` on a character list: each maximal run of
whitespace becomes one underscore.  The flag records whether the previous
character belonged to a whitespace run already replaced. -/
def replaceWsRunsAux : Bool → List Char → List Char
  | _, [] => []
  | prevWs, c :: rest =>
    if jsWhitespace c then
      if prevWs then replaceWsRunsAux true rest
      else '_' :: replaceWsRunsAux true rest
    else c :: replaceWsRunsAux false rest

/-- `category.category.replace(/\s+/g, "_")` as a string function. -/
def replaceWsRuns (s : String) : String := ⟨replaceWsRunsAux false s.data⟩

/-- One document section in single-file mode
(`### title`, link line, content). -/
def renderDocSingle (doc : DocumentContent) : String :=
  "### " ++ doc.title ++ "\n\n" ++ "[" ++ doc.url ++ "](" ++ doc.url ++ ")\n\n"
    ++ doc.content ++ "\n\n"

/-- One document section in multiple-file mode
(`## title`, link line, content). -/
def renderDocMultiple (doc : DocumentContent) : String :=
  "## " ++ doc.title ++ "\n\n" ++ "[" ++ doc.url ++ "](" ++ doc.url ++ ")\n\n"
    ++ doc.content ++ "\n\n"

/-- The `mode` parameter of `writeDocumentsToFile`. -/
inductive WriteMode
  | single
  | multiple
deriving DecidableEq, Repr

/-- Reified effect of `writeDocumentsToFile`: the `fs.writeFile` calls in
order (path with full content) next to the returned `outputFiles` array. -/
structure WriteResult where
  written : List (String × String)
  outputFiles : List String
deriving DecidableEq, Repr

/-- `writeDocumentsToFile` (src/src/lib/processing.ts:185).  In single mode
one file `{identifier}.md` is always written: the identifier heading, then
for each category with non-empty refUrls a `##` heading followed by its
processed documents.  In multiple mode each category with non-empty refUrls
yields one file `{identifier}_{name with whitespace runs as _}.md` headed by
the category name. -/
def writeDocumentsToFile (cleanup : String → String)
    (categories : CategorySchema) (identifier : IdentifierSchema)
    (crawlResult : CrawlStatusResponse) (outputDir : String)
    (mode : WriteMode) : WriteResult :=
  match mode with
  | .single =>
    let outputPath := pathJoin outputDir (identifier.identifier ++ ".md")
    let content := categories.categories.foldl
      (fun content category =>
        if category.refUrls.length = 0 then content
        else
          (processCategoryContent cleanup category crawlResult).foldl
            (fun content doc => content ++ renderDocSingle doc)
            (content ++ "## " ++ category.category ++ "\n\n"))
      ("# " ++ identifier.identifier ++ "\n\n")
    { written := [(outputPath, content)], outputFiles := [outputPath] }
  | .multiple =>
    categories.categories.foldl
      (fun acc category =>
        if category.refUrls.length = 0 then acc
        else
          let categoryFile := pathJoin outputDir
            (identifier.identifier ++ "_" ++ replaceWsRuns category.category
              ++ ".md")
          let content := (processCategoryContent cleanup category crawlResult).foldl
            (fun content doc => content ++ renderDocMultiple doc)
            ("# " ++ category.category ++ "\n\n")
          { written := acc.written ++ [(categoryFile, content)]
            outputFiles := acc.outputFiles ++ [categoryFile] })
      { written := [], outputFiles := [] }

/-- JS `s.toLowerCase()` (basic case folding), characterwise over the
string's character list. -/
def sLower (s : String) : String := ⟨s.data.map Char.toLower⟩

/-- First-occurrence deduplication, the order `[...new Set(l)]` produces:
`seen` accumulates the strings already emitted. -/
def dedupFirstAux : List String → List String → List String
  | _, [] => []
  | seen, x :: rest =>
    if x ∈ seen then dedupFirstAux seen rest
    else x :: dedupFirstAux (x :: seen) rest

/-- `[...new Set(l)]`: keep the first occurrence of each string, in order. -/
def dedupFirst (l : List String) : List String := dedupFirstAux [] l

/-- A category entry of the in-memory array in the split loop of
src/src/cli.ts, tagged with the JS object identity test `c !==
currentCategory`: the tag is `true` exactly on the entry that is the
`currentCategory` object being split. -/
abbrev TaggedCategory := Category × Bool

/-- The merge-target test of the split loop
(src/src/cli.ts:663): `c.category.toLowerCase() ===
newCat.category.toLowerCase() && c !== currentCategory`. -/
def isMergeTarget (newCat : Category) (p : TaggedCategory) : Bool :=
  !p.2 && (sLower p.1.category == sLower newCat.category)

/-- One iteration of the split loop (src/src/cli.ts:662): find the first
merge target; if found replace its refUrls with `[...new
Set([...existing, ...newCat.refUrls])]` in place, otherwise push `newCat`
(a fresh object, hence tag `false`) at the end. -/
def mergeOne : List TaggedCategory → Category → List TaggedCategory
  | [], newCat => [(newCat, false)]
  | p :: rest, newCat =>
    if isMergeTarget newCat p then
      ({ p.1 with refUrls := dedupFirst (p.1.refUrls ++ newCat.refUrls) }, p.2)
        :: rest
    else
      p :: mergeOne rest newCat

/-- The whole split loop: fold `mergeOne` over the oracle's categories. -/
def splitReconcileFold (cats : List TaggedCategory)
    (newCats : List Category) : List TaggedCategory :=
  newCats.foldl mergeOne cats

/-- Split reconciliation (src/src/cli.ts:661): run the merge loop, then
remove the original category (`filter(c => c !== currentCategory)`). -/
def splitReconcile (cats : List TaggedCategory)
    (newCats : List Category) : List Category :=
  ((splitReconcileFold cats newCats).filter fun p => !p.2).map fun p => p.1

/-! ## Helper lemmas -/

/-- A left fold accumulating rational summands is the starting value plus the
sum of the mapped list. -/
theorem foldl_add_map {α : Type} (f : α → ℚ) (l : List α) (init : ℚ) :
    l.foldl (fun acc x => acc + f x) init = init + (l.map f).sum := by
  induction l generalizing init with
  | nil => simp
  | cons a t ih => simp [List.foldl_cons, ih, add_assoc]

/-- Filtering twice with one predicate is filtering once. -/
theorem filter_self_idem {α : Type} (p : α → Bool) (l : List α) :
    (l.filter p).filter p = l.filter p := by
  induction l with
  | nil => rfl
  | cons a t ih =>
    by_cases h : p a <;> simp [List.filter_cons, h, ih]

/-- The token estimate of the empty string is zero. -/
theorem estimateTokens_empty : estimateTokens "" = 0 := by
  have h : ("" : String).length = 0 := rfl
  rw [estimateTokens, h]
  norm_num

/-- Filtering with the negation of a predicate keeps
`length - count of satisfying elements` entries. -/
theorem length_filter_not {α : Type} (p : α → Bool) (l : List α) :
    (l.filter fun a => !p a).length = l.length - l.countP p := by
  have h2 : l.countP p + l.countP (fun a => !p a) = l.length := by
    induction l with
    | nil => rfl
    | cons a t ih =>
      rw [List.countP_cons, List.countP_cons, List.length_cons]
      by_cases h : p a
      · rw [h]
        simp only [Bool.not_true, if_pos, if_neg, Bool.false_eq_true,
          not_false_iff]
        omega
      · have hb : p a = false := by simp [h]
        rw [hb]
        simp only [Bool.not_false, if_pos, if_neg, Bool.false_eq_true,
          not_false_iff]
        omega
  have h1 : (l.filter fun a => !p a).length = l.countP fun a => !p a :=
    (List.countP_eq_length_filter _ l).symm
  omega

/-! ## Claim theorems -/

/-- C1: for every string `content`, `estimateTokens content` equals
`⌈length content / 4⌉ * (4/5)` over exact rationals; in particular
`estimateTokens "" = 0`, `estimateTokens "A" = 0.8`, and
`estimateTokens "This is a test string" = 4.8`. -/
theorem estimateTokens_formula_and_values :
    (∀ content : String,
        estimateTokens content = ⌈(content.length : ℚ) / 4⌉ * (4 / 5))
    ∧ estimateTokens "" = 0
    ∧ estimateTokens "A" = (0.8 : ℚ)
    ∧ estimateTokens "This is a test string" = (4.8 : ℚ) := by
  refine ⟨fun content => ?_, estimateTokens_empty, ?_, ?_⟩
  · rw [estimateTokens]
    ring
  · have h : ("A" : String).length = 1 := rfl
    rw [estimateTokens, h,
      show ⌈((1 : Nat) : ℚ) / 4⌉ = 1 from by rw [Int.ceil_eq_iff] ; norm_num]
    norm_num
  · have h : ("This is a test string" : String).length = 21 := rfl
    rw [estimateTokens, h,
      show ⌈((21 : Nat) : ℚ) / 4⌉ = 6 from by rw [Int.ceil_eq_iff] ; norm_num]
    norm_num

/-- C2: `sanitizeCategories` is idempotent, and every refUrls entry of every
category of its output is the url of some document in the crawl result. -/
theorem sanitizeCategories_idempotent_and_resolving :
    ∀ (categories : CategorySchema) (crawlResult : CrawlStatusResponse),
      sanitizeCategories (sanitizeCategories categories crawlResult) crawlResult
        = sanitizeCategories categories crawlResult
      ∧ ∀ c ∈ (sanitizeCategories categories crawlResult).categories,
          ∀ u ∈ c.refUrls, ∃ d ∈ crawlResult.data, metaUrl d = some u := by
  intro categories crawlResult
  constructor
  · rw [sanitizeCategories, sanitizeCategories]
    simp only [List.map_map]
    exact congrArg CategorySchema.mk (List.map_congr_left fun c _ => by
      simp only [Function.comp_apply]
      simp [filter_self_idem])
  · intro c hc u hu
    rw [sanitizeCategories] at hc
    simp only [List.mem_map] at hc
    obtain ⟨c0, _, rfl⟩ := hc
    simp only [List.mem_filter] at hu
    obtain ⟨hu0, hfind⟩ := hu
    rw [Option.isSome_iff_exists] at hfind
    obtain ⟨d, hd⟩ := hfind
    refine ⟨d, List.mem_of_find?_eq_some hd, ?_⟩
    have := List.find?_some hd
    exact eq_of_beq this

/-- C6: `estimateTokensForCategory` sums `estimateTokens` of the content of
each refUrls entry that resolves in the crawl result, non-resolving entries
contributing exactly 0, and `estimateTokensForAllDocuments` sums
`estimateTokensForCategory` over all categories. -/
theorem estimateTokens_aggregates :
    (∀ (category : Category) (crawlResult : CrawlStatusResponse),
        estimateTokensForCategory category crawlResult
          = (category.refUrls.map fun url =>
              match crawlResult.data.find? (fun d => metaUrl d == some url) with
              | some d => estimateTokens (d.markdown.getD "")
              | none => 0).sum)
    ∧ ∀ (categories : CategorySchema) (crawlResult : CrawlStatusResponse),
        estimateTokensForAllDocuments categories crawlResult
          = (categories.categories.map fun c =>
              estimateTokensForCategory c crawlResult).sum := by
  constructor
  · intro category crawlResult
    rw [estimateTokensForCategory]
    rw [foldl_add_map
      (fun url => estimateTokens
        (((crawlResult.data.find? fun d => metaUrl d == some url).bind
            (fun d => d.markdown)).getD ""))
      category.refUrls 0]
    rw [zero_add]
    congr 1
    apply List.map_congr_left
    intro url _
    cases hfind : crawlResult.data.find? (fun d => metaUrl d == some url) with
    | none => simp [hfind, estimateTokens_empty]
    | some d => simp [hfind]
  · intro categories crawlResult
    rw [estimateTokensForAllDocuments]
    rw [foldl_add_map (fun c => estimateTokensForCategory c crawlResult)
      categories.categories 0]
    rw [zero_add]

/-- C8: `pruneUrlsFromCategory` with an empty removal list, or with a name
matching no category (case-sensitive exact equality), returns a structure
equal to its input. -/
theorem pruneUrlsFromCategory_noop :
    ∀ (categories : CategorySchema) (categoryName : String)
      (urlsToRemove : List String),
      (urlsToRemove = [] →
        pruneUrlsFromCategory categories categoryName urlsToRemove = categories)
      ∧ ((∀ c ∈ categories.categories, c.category ≠ categoryName) →
        pruneUrlsFromCategory categories categoryName urlsToRemove
          = categories) := by
  intro categories categoryName urlsToRemove
  constructor
  · rintro rfl
    rw [pruneUrlsFromCategory]
    have hmap : categories.categories.map (fun category =>
        if category.category = categoryName then
          { category with
            refUrls := category.refUrls.filter fun url =>
              !([] : List String).contains url }
        else category) = categories.categories.map id := by
      apply List.map_congr_left
      intro c _
      by_cases h : c.category = categoryName
      · rw [if_pos h]
        have hfil : c.refUrls.filter
            (fun url => !([] : List String).contains url) = c.refUrls := by
          simp
        rw [hfil]
        rfl
      · rw [if_neg h]
        rfl
    rw [hmap, List.map_id]
  · intro hnone
    rw [pruneUrlsFromCategory]
    have hmap : categories.categories.map (fun category =>
        if category.category = categoryName then
          { category with
            refUrls := category.refUrls.filter fun url =>
              !urlsToRemove.contains url }
        else category) = categories.categories.map id := by
      apply List.map_congr_left
      intro c hc
      simp [hnone c hc]
    rw [hmap, List.map_id]

/-- C9: `sanitizeCategories` never drops a category: the output has the same
number of categories with the same names in the same order. -/
theorem sanitizeCategories_preserves_category_list :
    ∀ (categories : CategorySchema) (crawlResult : CrawlStatusResponse),
      (sanitizeCategories categories crawlResult).categories.length
          = categories.categories.length
      ∧ (sanitizeCategories categories crawlResult).categories.map
            (fun c => c.category)
          = categories.categories.map (fun c => c.category) := by
  intro categories crawlResult
  constructor
  · rw [sanitizeCategories]
    exact List.length_map _ _
  · rw [sanitizeCategories]
    simp only [List.map_map]
    rfl

/-- C3: `pruneUrlsFromCategory` filters exactly the listed URLs out of every
category whose name equals `categoryName`: the surviving refUrls are the
original ones not in the removal list, the new length is the original length
minus the number of original entries occurring in the removal list, and any
category with a different name is returned equal to its original. -/
theorem pruneUrlsFromCategory_exact :
    ∀ (categories : CategorySchema) (categoryName : String)
      (urlsToRemove : List String) (i : Nat) (orig : Category),
      categories.categories[i]? = some orig →
      ∃ res : Category,
        (pruneUrlsFromCategory categories categoryName
            urlsToRemove).categories[i]? = some res
        ∧ (orig.category = categoryName →
            res.category = orig.category
            ∧ res.refUrls
                = orig.refUrls.filter (fun url => !urlsToRemove.contains url)
            ∧ res.refUrls.length
                = orig.refUrls.length
                  - orig.refUrls.countP (fun url => urlsToRemove.contains url)
            ∧ ∀ u, u ∈ res.refUrls ↔ u ∈ orig.refUrls ∧ u ∉ urlsToRemove)
        ∧ (orig.category ≠ categoryName → res = orig) := by
  intro categories categoryName urlsToRemove i orig h
  refine ⟨if orig.category = categoryName then
      { orig with
        refUrls := orig.refUrls.filter fun url => !urlsToRemove.contains url }
    else orig, ?_, ?_, ?_⟩
  · rw [pruneUrlsFromCategory]
    show (categories.categories.map _)[i]? = _
    rw [List.getElem?_map, h]
    rfl
  · intro hname
    rw [if_pos hname]
    refine ⟨rfl, rfl, length_filter_not _ _, fun u => ?_⟩
    simp [List.mem_filter]
  · intro hname
    rw [if_neg hname]

/-- C7: a refUrls entry with no matching document, or whose matched document
has a falsy title, url, or markdown, makes `processDocument` return none for
any cleanup oracle, and such an entry contributes nothing to
`processCategoryContent`: removing it from the refUrls list leaves the
assembled output unchanged.  Both functions are total, so no error can be
raised. -/
theorem processDocument_skips_silently :
    (∀ (cleanup : String → String) (url : String)
        (crawlResult : CrawlStatusResponse),
      (crawlResult.data.find? (fun d => metaUrl d == some url) = none
        ∨ ∃ d, crawlResult.data.find? (fun d => metaUrl d == some url) = some d
            ∧ (strFalsy (metaTitle d) = true ∨ strFalsy (metaUrl d) = true
                ∨ strFalsy d.markdown = true)) →
      processDocument cleanup url crawlResult = none)
    ∧ ∀ (cleanup : String → String) (category : Category)
        (crawlResult : CrawlStatusResponse) (us1 us2 : List String)
        (u : String),
        processDocument cleanup u crawlResult = none →
        processCategoryContent cleanup
            { category with refUrls := us1 ++ u :: us2 } crawlResult
          = processCategoryContent cleanup
              { category with refUrls := us1 ++ us2 } crawlResult := by
  constructor
  · intro cleanup url crawlResult hmiss
    rcases hmiss with hnone | ⟨d, hfind, hfalsy⟩
    · rw [processDocument]
      simp only [hnone, Option.bind_none]
      rfl
    · rw [processDocument]
      simp only [hfind, Option.bind_some, Option.some_bind]
      rcases hfalsy with h | h | h <;> simp [h]
  · intro cleanup category crawlResult us1 us2 u hnone
    rw [processCategoryContent, processCategoryContent]
    simp only [List.filterMap_append, List.filterMap_cons, hnone]

/-- C2 witness: a concrete category set and crawl result instantiating the
idempotence and resolution statement. -/
theorem sanitizeCategories_idempotent_and_resolving_witness :
    sanitizeCategories
        (sanitizeCategories ⟨[⟨"A", ["u", "x"]⟩]⟩
          ⟨[⟨some ⟨some "u", some "T", none⟩, some "M"⟩]⟩)
        ⟨[⟨some ⟨some "u", some "T", none⟩, some "M"⟩]⟩
      = sanitizeCategories ⟨[⟨"A", ["u", "x"]⟩]⟩
          ⟨[⟨some ⟨some "u", some "T", none⟩, some "M"⟩]⟩
    ∧ ∃ d ∈ (⟨[⟨some ⟨some "u", some "T", none⟩, some "M"⟩]⟩ :
        CrawlStatusResponse).data, metaUrl d = some "u" :=
  ⟨(sanitizeCategories_idempotent_and_resolving ⟨[⟨"A", ["u", "x"]⟩]⟩
      ⟨[⟨some ⟨some "u", some "T", none⟩, some "M"⟩]⟩).1,
   (sanitizeCategories_idempotent_and_resolving ⟨[⟨"A", ["u", "x"]⟩]⟩
      ⟨[⟨some ⟨some "u", some "T", none⟩, some "M"⟩]⟩).2
     ⟨"A", ["u"]⟩ (by decide) "u" (by decide)⟩

/-- C3 witness: pruning `["u2", "u9"]` from category `"A"` of a concrete set
leaves exactly `["u1"]` there. -/
theorem pruneUrlsFromCategory_exact_witness :
    (pruneUrlsFromCategory ⟨[⟨"A", ["u1", "u2"]⟩, ⟨"B", ["u3"]⟩]⟩ "A"
        ["u2", "u9"]).categories[0]? = some ⟨"A", ["u1"]⟩ := by
  obtain ⟨res, hres, hpos, hneg⟩ :=
    pruneUrlsFromCategory_exact ⟨[⟨"A", ["u1", "u2"]⟩, ⟨"B", ["u3"]⟩]⟩ "A"
      ["u2", "u9"] 0 ⟨"A", ["u1", "u2"]⟩ (by decide)
  obtain ⟨hcat, hurls, hlen, hmem⟩ := hpos rfl
  have h2 : res.refUrls = ["u1"] := by
    rw [hurls]
    decide
  rw [hres]
  cases res
  simp_all

/-- C7 witness: a document with a missing title is skipped and contributes
nothing to the processed category content. -/
theorem processDocument_skips_silently_witness :
    processDocument id "u" ⟨[⟨some ⟨some "u", none, none⟩, some "M"⟩]⟩ = none
    ∧ processCategoryContent id ⟨"A", ["u"]⟩
        ⟨[⟨some ⟨some "u", none, none⟩, some "M"⟩]⟩
      = processCategoryContent id ⟨"A", []⟩
          ⟨[⟨some ⟨some "u", none, none⟩, some "M"⟩]⟩ := by
  have h1 : processDocument id "u"
      ⟨[⟨some ⟨some "u", none, none⟩, some "M"⟩]⟩ = none :=
    processDocument_skips_silently.1 id "u"
      ⟨[⟨some ⟨some "u", none, none⟩, some "M"⟩]⟩
      (Or.inr ⟨⟨some ⟨some "u", none, none⟩, some "M"⟩, by decide,
        Or.inl (by decide)⟩)
  refine ⟨h1, ?_⟩
  exact processDocument_skips_silently.2 id ⟨"A", ["u"]⟩
    ⟨[⟨some ⟨some "u", none, none⟩, some "M"⟩]⟩ [] [] "u" h1

/-- C8 witness: pruning with an empty removal list and pruning a missing
category name both return the input unchanged on a concrete set. -/
theorem pruneUrlsFromCategory_noop_witness :
    pruneUrlsFromCategory ⟨[⟨"A", ["u"]⟩]⟩ "A" [] = ⟨[⟨"A", ["u"]⟩]⟩
    ∧ pruneUrlsFromCategory ⟨[⟨"A", ["u"]⟩]⟩ "B" ["u"] = ⟨[⟨"A", ["u"]⟩]⟩ :=
  ⟨(pruneUrlsFromCategory_noop ⟨[⟨"A", ["u"]⟩]⟩ "A" []).1 rfl,
   (pruneUrlsFromCategory_noop ⟨[⟨"A", ["u"]⟩]⟩ "B" ["u"]).2 (by decide)⟩

/-- Membership in the deduplication worker: an element appears iff it is in
the remaining input and was not already seen. -/
theorem dedupFirstAux_mem (l : List String) :
    ∀ (seen : List String) (u : String),
      u ∈ dedupFirstAux seen l ↔ u ∈ l ∧ u ∉ seen := by
  induction l with
  | nil => intro seen u; simp [dedupFirstAux]
  | cons x rest ih =>
    intro seen u
    by_cases hx : x ∈ seen
    · rw [dedupFirstAux, if_pos hx, ih]
      constructor
      · rintro ⟨h1, h2⟩
        exact ⟨List.mem_cons_of_mem x h1, h2⟩
      · rintro ⟨h1, h2⟩
        rcases List.mem_cons.mp h1 with rfl | h1
        · exact absurd hx h2
        · exact ⟨h1, h2⟩
    · rw [dedupFirstAux, if_neg hx]
      rw [List.mem_cons, ih]
      constructor
      · rintro (rfl | ⟨h1, h2⟩)
        · exact ⟨List.mem_cons_self _ _, hx⟩
        · refine ⟨List.mem_cons_of_mem _ h1, fun hu => h2 ?_⟩
          exact List.mem_cons_of_mem _ hu
      · rintro ⟨h1, h2⟩
        rcases List.mem_cons.mp h1 with rfl | h1
        · exact Or.inl rfl
        · by_cases hux : u = x
          · exact Or.inl hux
          · refine Or.inr ⟨h1, fun hu => ?_⟩
            rcases List.mem_cons.mp hu with h | h
            · exact hux h
            · exact h2 h

/-- The deduplication worker never emits a duplicate. -/
theorem dedupFirstAux_nodup (l : List String) :
    ∀ seen : List String, (dedupFirstAux seen l).Nodup := by
  induction l with
  | nil => intro seen; simp [dedupFirstAux]
  | cons x rest ih =>
    intro seen
    by_cases hx : x ∈ seen
    · rw [dedupFirstAux, if_pos hx]
      exact ih seen
    · rw [dedupFirstAux, if_neg hx]
      refine List.nodup_cons.mpr ⟨fun hmem => ?_, ih (x :: seen)⟩
      exact ((dedupFirstAux_mem rest (x :: seen) x).mp hmem).2
        (List.mem_cons_self x seen)

/-- When no entry of the array is a merge target, the split loop pushes the
oracle category at the end unchanged. -/
theorem mergeOne_no_target (cats : List TaggedCategory) (newCat : Category)
    (h : ∀ p ∈ cats, isMergeTarget newCat p = false) :
    mergeOne cats newCat = cats ++ [(newCat, false)] := by
  induction cats with
  | nil => rfl
  | cons p rest ih =>
    rw [mergeOne, if_neg]
    · rw [ih fun q hq => h q (List.mem_cons_of_mem p hq)]
      rfl
    · simp [h p (List.mem_cons_self p rest)]

/-- When the array splits as `l1 ++ p :: l2` with no merge target in `l1`
and `p` a merge target, the split loop replaces exactly `p`'s refUrls with
the first-occurrence deduplication of the concatenated refUrls. -/
theorem mergeOne_target (l1 : List TaggedCategory) :
    ∀ (l2 : List TaggedCategory) (p : TaggedCategory) (newCat : Category),
      (∀ q ∈ l1, isMergeTarget newCat q = false) →
      isMergeTarget newCat p = true →
      mergeOne (l1 ++ p :: l2) newCat
        = l1 ++ ({ p.1 with
            refUrls := dedupFirst (p.1.refUrls ++ newCat.refUrls) }, p.2)
            :: l2 := by
  induction l1 with
  | nil =>
    intro l2 p newCat _ hp
    rw [List.nil_append, mergeOne, if_pos hp, List.nil_append]
  | cons q rest ih =>
    intro l2 p newCat h1 hp
    rw [List.cons_append, mergeOne, if_neg]
    · rw [ih l2 p newCat (fun r hr => h1 r (List.mem_cons_of_mem q hr)) hp]
      rfl
    · simp [h1 q (List.mem_cons_self q rest)]

/-- One merge step never touches the tagged (current) entries. -/
theorem mergeOne_filter_tag (cats : List TaggedCategory) (newCat : Category) :
    (mergeOne cats newCat).filter (fun p => p.2)
      = cats.filter (fun p => p.2) := by
  induction cats with
  | nil => rfl
  | cons p rest ih =>
    by_cases h : isMergeTarget newCat p = true
    · have hp2 : p.2 = false := by
        rw [isMergeTarget, Bool.and_eq_true] at h
        simpa using h.1
      rw [mergeOne, if_pos h]
      rw [List.filter_cons, List.filter_cons]
      simp [hp2]
    · rw [mergeOne, if_neg h]
      rw [List.filter_cons, List.filter_cons, ih]

/-- The whole merge loop never touches the tagged (current) entries. -/
theorem splitFold_filter_tag (newCats : List Category) :
    ∀ cats : List TaggedCategory,
      (splitReconcileFold cats newCats).filter (fun p => p.2)
        = cats.filter (fun p => p.2) := by
  induction newCats with
  | nil => intro cats; rfl
  | cons nc rest ih =>
    intro cats
    rw [splitReconcileFold, List.foldl_cons]
    calc (List.foldl mergeOne (mergeOne cats nc) rest).filter (fun p => p.2)
        = (mergeOne cats nc).filter (fun p => p.2) := ih (mergeOne cats nc)
      _ = cats.filter (fun p => p.2) := mergeOne_filter_tag cats nc

/-- C5: split-category reconciliation (the `split` case of
`viewExpandedCategories`, modelled with an identity tag on the category
being split).  For each oracle category: with no case-insensitive name match
among the other entries it is appended unchanged; with a first match at `p`
that entry's refUrls become the duplicate-free union of the two lists and
nothing else changes.  `dedupFirst` yields exactly the union with no
duplicates, and across the whole loop the entry being split is untouched and
then removed by the final filter defining `splitReconcile`. -/
theorem split_reconciliation_spec :
    (∀ (cats : List TaggedCategory) (newCat : Category),
        (∀ p ∈ cats, isMergeTarget newCat p = false) →
        mergeOne cats newCat = cats ++ [(newCat, false)])
    ∧ (∀ (l1 l2 : List TaggedCategory) (p : TaggedCategory)
          (newCat : Category),
        (∀ q ∈ l1, isMergeTarget newCat q = false) →
        isMergeTarget newCat p = true →
        mergeOne (l1 ++ p :: l2) newCat
          = l1 ++ ({ p.1 with
              refUrls := dedupFirst (p.1.refUrls ++ newCat.refUrls) }, p.2)
              :: l2)
    ∧ (∀ a b : List String, (dedupFirst (a ++ b)).Nodup
        ∧ ∀ u, u ∈ dedupFirst (a ++ b) ↔ u ∈ a ∨ u ∈ b)
    ∧ (∀ (cats : List TaggedCategory) (newCats : List Category),
        (splitReconcileFold cats newCats).filter (fun p => p.2)
          = cats.filter (fun p => p.2)
        ∧ ∀ c : Category, c ∈ splitReconcile cats newCats ↔
            ∃ p ∈ splitReconcileFold cats newCats, p.2 = false ∧ p.1 = c) := by
  refine ⟨mergeOne_no_target, fun l1 l2 p newCat h1 hp =>
    mergeOne_target l1 l2 p newCat h1 hp, fun a b => ⟨?_, fun u => ?_⟩,
    fun cats newCats => ⟨splitFold_filter_tag newCats cats, fun c => ?_⟩⟩
  · exact dedupFirstAux_nodup (a ++ b) []
  · rw [dedupFirst, dedupFirstAux_mem]
    simp
  · rw [splitReconcile]
    simp only [List.mem_map, List.mem_filter, Bool.not_eq_true']
    constructor
    · rintro ⟨p, ⟨hmem, htag⟩, rfl⟩
      exact ⟨p, hmem, htag, rfl⟩
    · rintro ⟨p, hmem, htag, rfl⟩
      exact ⟨p, ⟨hmem, htag⟩, rfl⟩

/-- C5 witness: an append with no merge target, and a merge into the first
case-insensitive name match with duplicate URLs collapsed. -/
theorem split_reconciliation_spec_witness :
    mergeOne [((⟨"B", ["u2"]⟩ : Category), true)] ⟨"C", ["u"]⟩
      = [(⟨"B", ["u2"]⟩, true), (⟨"C", ["u"]⟩, false)]
    ∧ mergeOne [((⟨"B", ["u2"]⟩ : Category), true), (⟨"A", ["u1"]⟩, false)]
        ⟨"a", ["u1", "u3"]⟩
      = [(⟨"B", ["u2"]⟩, true), (⟨"A", ["u1", "u3"]⟩, false)] := by
  constructor
  · rw [split_reconciliation_spec.1 [((⟨"B", ["u2"]⟩ : Category), true)]
      ⟨"C", ["u"]⟩ (by decide)]
    rfl
  · rw [show [((⟨"B", ["u2"]⟩ : Category), true), (⟨"A", ["u1"]⟩, false)]
        = [((⟨"B", ["u2"]⟩ : Category), true)]
            ++ ((⟨"A", ["u1"]⟩ : Category), false) :: [] from rfl,
      split_reconciliation_spec.2.1 [((⟨"B", ["u2"]⟩ : Category), true)] []
        ((⟨"A", ["u1"]⟩ : Category), false) ⟨"a", ["u1", "u3"]⟩ (by decide)
        (by decide)]
    decide

/-- Appending left folds of string concatenation peel off the left part. -/
theorem strFoldlAppend (l : List String) :
    ∀ a b : String,
      l.foldl (fun r s => r ++ s) (a ++ b)
        = a ++ l.foldl (fun r s => r ++ s) b := by
  induction l with
  | nil => intro a b; rfl
  | cons c t ih =>
    intro a b
    rw [List.foldl_cons, List.foldl_cons, String.append_assoc, ih]

/-- `String.join` of a cons. -/
theorem strJoin_cons (s : String) (l : List String) :
    String.join (s :: l) = s ++ String.join l := by
  show l.foldl (fun r t => r ++ t) ("" ++ s) = s ++ String.join l
  rw [String.empty_append]
  have h := strFoldlAppend l s ""
  rw [String.append_empty] at h
  exact h

/-- A left fold appending rendered items equals the start value followed by
the join of the rendered list. -/
theorem foldl_append_render {α : Type} (f : α → String) (l : List α) :
    ∀ init : String,
      l.foldl (fun acc x => acc ++ f x) init
        = init ++ String.join (l.map f) := by
  induction l with
  | nil => intro init; rw [List.foldl_nil, List.map_nil]; exact (String.append_empty init).symm
  | cons a t ih =>
    intro init
    rw [List.foldl_cons, List.map_cons, ih, strJoin_cons, String.append_assoc]

/-- The content accumulation loop of single-file mode: starting from `init`,
it appends one `##` section per category with non-empty refUrls. -/
theorem singleContent_fold (cleanup : String → String)
    (crawlResult : CrawlStatusResponse) (l : List Category) :
    ∀ init : String,
      l.foldl
        (fun content category =>
          if category.refUrls.length = 0 then content
          else
            (processCategoryContent cleanup category crawlResult).foldl
              (fun content doc => content ++ renderDocSingle doc)
              (content ++ "## " ++ category.category ++ "\n\n"))
        init
      = init ++ String.join
          ((l.filter fun c => decide (c.refUrls.length ≠ 0)).map fun c =>
            "## " ++ c.category ++ "\n\n"
              ++ String.join
                ((processCategoryContent cleanup c crawlResult).map
                  renderDocSingle)) := by
  induction l with
  | nil =>
    intro init
    rw [List.foldl_nil, List.filter_nil, List.map_nil]
    exact (String.append_empty init).symm
  | cons c t ih =>
    intro init
    rw [List.foldl_cons]
    by_cases hc : c.refUrls.length = 0
    · rw [if_pos hc]
      have h0 : c.refUrls = [] := List.length_eq_zero.mp hc
      rw [show (List.filter (fun c => decide (c.refUrls.length ≠ 0)) (c :: t))
          = List.filter (fun c => decide (c.refUrls.length ≠ 0)) t from by
        simp [List.filter_cons, h0]]
      exact ih init
    · rw [if_neg hc]
      have h0 : ¬ c.refUrls = [] := fun he => hc (by simp [he])
      rw [show (List.filter (fun c => decide (c.refUrls.length ≠ 0)) (c :: t))
          = c :: List.filter (fun c => decide (c.refUrls.length ≠ 0)) t from by
        simp [List.filter_cons, h0]]
      rw [foldl_append_render renderDocSingle
        (processCategoryContent cleanup c crawlResult)
        (init ++ "## " ++ c.category ++ "\n\n")]
      rw [ih, List.map_cons, strJoin_cons]
      simp only [String.append_assoc]

/-- The write loop of multiple-file mode: starting from any accumulator, it
appends one (path, content) pair and one output path per category with
non-empty refUrls. -/
theorem multiContent_fold (cleanup : String → String)
    (identifier : IdentifierSchema) (crawlResult : CrawlStatusResponse)
    (outputDir : String) (l : List Category) :
    ∀ acc : WriteResult,
      l.foldl
        (fun acc category =>
          if category.refUrls.length = 0 then acc
          else
            let categoryFile := pathJoin outputDir
              (identifier.identifier ++ "_" ++ replaceWsRuns category.category
                ++ ".md")
            let content := (processCategoryContent cleanup category
              crawlResult).foldl
              (fun content doc => content ++ renderDocMultiple doc)
              ("# " ++ category.category ++ "\n\n")
            { written := acc.written ++ [(categoryFile, content)]
              outputFiles := acc.outputFiles ++ [categoryFile] })
        acc
      = { written := acc.written
            ++ ((l.filter fun c => decide (c.refUrls.length ≠ 0)).map fun c =>
              (pathJoin outputDir
                  (identifier.identifier ++ "_" ++ replaceWsRuns c.category
                    ++ ".md"),
                "# " ++ c.category ++ "\n\n"
                  ++ String.join
                    ((processCategoryContent cleanup c crawlResult).map
                      renderDocMultiple)))
          outputFiles := acc.outputFiles
            ++ ((l.filter fun c => decide (c.refUrls.length ≠ 0)).map fun c =>
              pathJoin outputDir
                (identifier.identifier ++ "_" ++ replaceWsRuns c.category
                  ++ ".md")) } := by
  induction l with
  | nil =>
    intro acc
    rw [List.foldl_nil, List.filter_nil, List.map_nil, List.map_nil,
      List.append_nil, List.append_nil]
  | cons c t ih =>
    intro acc
    rw [List.foldl_cons]
    by_cases hc : c.refUrls.length = 0
    · rw [if_pos hc]
      have h0 : c.refUrls = [] := List.length_eq_zero.mp hc
      rw [show (List.filter (fun c => decide (c.refUrls.length ≠ 0)) (c :: t))
          = List.filter (fun c => decide (c.refUrls.length ≠ 0)) t from by
        simp [List.filter_cons, h0]]
      exact ih acc
    · rw [if_neg hc]
      have h0 : ¬ c.refUrls = [] := fun he => hc (by simp [he])
      rw [show (List.filter (fun c => decide (c.refUrls.length ≠ 0)) (c :: t))
          = c :: List.filter (fun c => decide (c.refUrls.length ≠ 0)) t from by
        simp [List.filter_cons, h0]]
      rw [ih]
      simp only [List.map_cons]
      rw [foldl_append_render renderDocMultiple
        (processCategoryContent cleanup c crawlResult)
        ("# " ++ c.category ++ "\n\n")]
      simp [List.append_assoc]

/-- C4: the assembler skips every category with empty refUrls.  Single mode
writes exactly one file `outputDir/{identifier}.md` whose content is the
top-level identifier heading followed by one `##` section per non-empty
category; multiple mode writes one file per non-empty category named
`{identifier}_{name with whitespace runs replaced by underscores}.md` (zero
files when every category is empty); in both modes the returned list is the
list of paths actually written, in category order. -/
theorem writeDocumentsToFile_spec :
    ∀ (cleanup : String → String) (categories : CategorySchema)
      (identifier : IdentifierSchema) (crawlResult : CrawlStatusResponse)
      (outputDir : String),
      ((writeDocumentsToFile cleanup categories identifier crawlResult
          outputDir WriteMode.single).written
        = [(pathJoin outputDir (identifier.identifier ++ ".md"),
            "# " ++ identifier.identifier ++ "\n\n"
              ++ String.join
                ((categories.categories.filter
                    (fun c => decide (c.refUrls.length ≠ 0))).map fun c =>
                  "## " ++ c.category ++ "\n\n"
                    ++ String.join
                      ((processCategoryContent cleanup c crawlResult).map
                        renderDocSingle)))])
      ∧ ((writeDocumentsToFile cleanup categories identifier crawlResult
          outputDir WriteMode.multiple).written
        = (categories.categories.filter
            (fun c => decide (c.refUrls.length ≠ 0))).map fun c =>
            (pathJoin outputDir
                (identifier.identifier ++ "_" ++ replaceWsRuns c.category
                  ++ ".md"),
              "# " ++ c.category ++ "\n\n"
                ++ String.join
                  ((processCategoryContent cleanup c crawlResult).map
                    renderDocMultiple)))
      ∧ (∀ mode, (writeDocumentsToFile cleanup categories identifier
            crawlResult outputDir mode).outputFiles
          = ((writeDocumentsToFile cleanup categories identifier crawlResult
              outputDir mode).written.map fun f => f.1))
      ∧ ((∀ c ∈ categories.categories, c.refUrls = []) →
          (writeDocumentsToFile cleanup categories identifier crawlResult
            outputDir WriteMode.multiple).written = []) := by
  intro cleanup categories identifier crawlResult outputDir
  have hsingle := singleContent_fold cleanup crawlResult categories.categories
    ("# " ++ identifier.identifier ++ "\n\n")
  have hmulti := multiContent_fold cleanup identifier crawlResult outputDir
    categories.categories ⟨[], []⟩
  have hw2 : (writeDocumentsToFile cleanup categories identifier crawlResult
      outputDir WriteMode.multiple).written
      = (categories.categories.filter
          (fun c => decide (c.refUrls.length ≠ 0))).map fun c =>
          (pathJoin outputDir
              (identifier.identifier ++ "_" ++ replaceWsRuns c.category
                ++ ".md"),
            "# " ++ c.category ++ "\n\n"
              ++ String.join
                ((processCategoryContent cleanup c crawlResult).map
                  renderDocMultiple)) := by
    simp only [writeDocumentsToFile]
    rw [hmulti]
    rfl
  refine ⟨?_, hw2, ?_, ?_⟩
  · simp only [writeDocumentsToFile]
    rw [hsingle]
  · intro mode
    cases mode with
    | single =>
      simp only [writeDocumentsToFile]
      rfl
    | multiple =>
      rw [hw2]
      simp only [writeDocumentsToFile]
      rw [hmulti]
      simp only [List.nil_append, List.map_map]
      rfl
  · intro hempty
    rw [hw2]
    have hfil : categories.categories.filter
        (fun c => decide (c.refUrls.length ≠ 0)) = [] := by
      rw [List.filter_eq_nil_iff]
      intro c hc
      simp [hempty c hc]
    rw [hfil, List.map_nil]

/-- C10: when every category has empty refUrls, single mode still writes
exactly one file `outputDir/{identifier}.md` containing only the top-level
identifier heading and returns that one path, while multiple mode writes no
file and returns no path. -/
theorem writeDocumentsToFile_single_all_empty :
    ∀ (cleanup : String → String) (categories : CategorySchema)
      (identifier : IdentifierSchema) (crawlResult : CrawlStatusResponse)
      (outputDir : String),
      (∀ c ∈ categories.categories, c.refUrls = []) →
      (writeDocumentsToFile cleanup categories identifier crawlResult
          outputDir WriteMode.single).written
        = [(pathJoin outputDir (identifier.identifier ++ ".md"),
            "# " ++ identifier.identifier ++ "\n\n")]
      ∧ (writeDocumentsToFile cleanup categories identifier crawlResult
          outputDir WriteMode.single).outputFiles
        = [pathJoin outputDir (identifier.identifier ++ ".md")]
      ∧ (writeDocumentsToFile cleanup categories identifier crawlResult
          outputDir WriteMode.multiple).written = []
      ∧ (writeDocumentsToFile cleanup categories identifier crawlResult
          outputDir WriteMode.multiple).outputFiles = [] := by
  intro cleanup categories identifier crawlResult outputDir hempty
  have hfil : categories.categories.filter
      (fun c => decide (c.refUrls.length ≠ 0)) = [] := by
    rw [List.filter_eq_nil_iff]
    intro c hc
    simp [hempty c hc]
  have hmulti := multiContent_fold cleanup identifier crawlResult outputDir
    categories.categories ⟨[], []⟩
  rw [hfil, List.map_nil, List.map_nil, List.append_nil,
    List.append_nil] at hmulti
  refine ⟨?_, ?_, ?_, ?_⟩
  · simp only [writeDocumentsToFile]
    rw [singleContent_fold cleanup crawlResult categories.categories
      ("# " ++ identifier.identifier ++ "\n\n"), hfil, List.map_nil]
    rw [show String.join [] = "" from rfl, String.append_empty]
  · simp only [writeDocumentsToFile]
  · simp only [writeDocumentsToFile]
    rw [hmulti]
  · simp only [writeDocumentsToFile]
    rw [hmulti]

/-- C4 witness: on a concrete set whose only category is empty, multiple
mode writes nothing. -/
theorem writeDocumentsToFile_spec_witness :
    (writeDocumentsToFile id ⟨[⟨"Guides", []⟩]⟩ ⟨"docs"⟩ ⟨[]⟩ "out"
      WriteMode.multiple).written = [] :=
  (writeDocumentsToFile_spec id ⟨[⟨"Guides", []⟩]⟩ ⟨"docs"⟩ ⟨[]⟩
    "out").2.2.2 (by decide)

/-- C10 witness: concrete all-empty category set; single mode writes the one
heading-only file, multiple mode writes nothing. -/
theorem writeDocumentsToFile_single_all_empty_witness :
    (writeDocumentsToFile id ⟨[⟨"A", []⟩, ⟨"B", []⟩]⟩ ⟨"doc"⟩ ⟨[]⟩ "out"
        WriteMode.single).written = [("out/doc.md", "# doc\n\n")]
    ∧ (writeDocumentsToFile id ⟨[⟨"A", []⟩, ⟨"B", []⟩]⟩ ⟨"doc"⟩ ⟨[]⟩ "out"
        WriteMode.single).outputFiles = ["out/doc.md"]
    ∧ (writeDocumentsToFile id ⟨[⟨"A", []⟩, ⟨"B", []⟩]⟩ ⟨"doc"⟩ ⟨[]⟩ "out"
        WriteMode.multiple).written = []
    ∧ (writeDocumentsToFile id ⟨[⟨"A", []⟩, ⟨"B", []⟩]⟩ ⟨"doc"⟩ ⟨[]⟩ "out"
        WriteMode.multiple).outputFiles = [] := by
  obtain ⟨h1, h2, h3, h4⟩ :=
    writeDocumentsToFile_single_all_empty id ⟨[⟨"A", []⟩, ⟨"B", []⟩]⟩ ⟨"doc"⟩
      ⟨[]⟩ "out" (by decide)
  refine ⟨?_, ?_, h3, h4⟩
  · rw [h1]
    rfl
  · rw [h2]
    rfl

end LlmDump
